import Mathlib

/-!
Verification of the LDAPProcessor attribute normalizer and paginated
query engine (`LDAPProcessor.py`), as a shallow embedding in Lean 4.

Raw protocol bytes are modelled as `List Nat` (each element a byte value),
Python exceptions as an explicit error type, and the LDAP server as the
list of responses it returns, one per round trip.
-/

namespace LDAPProcessor

/-- Python exception kinds raised by the code under verification. -/
inductive PyErr where
  | valueError
  | assertionError
  | unicodeDecodeError
  | structError
  deriving DecidableEq, Repr

/-- A normalized JSON attribute value: either a single string or an
ordered sequence of strings (the only two shapes `build_json` produces). -/
inductive JVal where
  | str (s : String)
  | arr (l : List String)
  deriving DecidableEq, Repr

/-- One raw directory entry as returned by python-ldap: the
distinguished name and the attribute dictionary (attribute name to the
list of raw byte-string values, value order preserved). -/
structure Entry where
  dn : String
  attrs : List (String × List (List Nat))
  deriving DecidableEq, Repr

/-! ## Text decoding (Python `unicode(...)` and `str.decode('utf-8')`) -/

/-- Lowercase hexadecimal digit character. -/
def hexDigit (d : Nat) : Char :=
  if d < 10 then Char.ofNat (48 + d) else Char.ofNat (87 + d)

/-- Strict ASCII decode, the behaviour of Python 2 `unicode(s)` on a
byte string: succeeds iff every byte is below 128. -/
def pyUnicodeAscii (l : List Nat) : Option String :=
  if l.all (· < 128) then some (String.mk (l.map Char.ofNat)) else none

/-- Is `c` a UTF-8 continuation byte (0x80..0xBF)? -/
def utf8Cont (c : Nat) : Bool := 128 ≤ c && c ≤ 191

/-- Admissible second byte of a three-byte UTF-8 sequence led by `b`
(excludes overlong encodings and surrogates, as Python's strict
`decode('utf-8')` does). -/
def utf8Second3 (b c : Nat) : Bool :=
  if b = 224 then 160 ≤ c && c ≤ 191
  else if b = 237 then 128 ≤ c && c ≤ 159
  else utf8Cont c

/-- Admissible second byte of a four-byte UTF-8 sequence led by `b`. -/
def utf8Second4 (b c : Nat) : Bool :=
  if b = 240 then 144 ≤ c && c ≤ 191
  else if b = 244 then 128 ≤ c && c ≤ 143
  else utf8Cont c

/-- Strict UTF-8 decoding of a byte list to characters, the behaviour of
Python `s.decode('utf-8')`: `none` models an uncaught
`UnicodeDecodeError` on malformed input.  The `fuel` argument only
bounds the recursion; the input's length is always enough. -/
def utf8DF : Nat → List Nat → Option (List Char)
  | _, [] => some []
  | 0, _ :: _ => none
  | fuel + 1, b :: rest =>
    if b < 128 then (utf8DF fuel rest).map (Char.ofNat b :: ·)
    else if 194 ≤ b && b ≤ 223 then
      match rest with
      | c :: r2 =>
        if utf8Cont c then
          (utf8DF fuel r2).map (Char.ofNat ((b - 192) * 64 + (c - 128)) :: ·)
        else none
      | [] => none
    else if 224 ≤ b && b ≤ 239 then
      match rest with
      | c :: d :: r3 =>
        if utf8Second3 b c && utf8Cont d then
          (utf8DF fuel r3).map
            (Char.ofNat ((b - 224) * 4096 + (c - 128) * 64 + (d - 128)) :: ·)
        else none
      | _ => none
    else if 240 ≤ b && b ≤ 244 then
      match rest with
      | c :: d :: e :: r4 =>
        if utf8Second4 b c && utf8Cont d && utf8Cont e then
          (utf8DF fuel r4).map
            (Char.ofNat ((b - 240) * 262144 + (c - 128) * 4096 +
              (d - 128) * 64 + (e - 128)) :: ·)
        else none
      | _ => none
    else none

/-- Strict UTF-8 decoding of a byte list. -/
def utf8D (l : List Nat) : Option (List Char) := utf8DF l.length l

/-- Strict UTF-8 decode to a `String`. -/
def utf8Decode? (l : List Nat) : Option String := (utf8D l).map String.mk

/-! ## Python string primitives used by `build_json` -/

/-- Python `str.split(',')`: split on the comma byte, keeping empty
pieces, always returning at least one piece. -/
def pySplitComma : List Nat → List (List Nat)
  | [] => [[]]
  | b :: rest =>
    let r := pySplitComma rest
    if b = 44 then [] :: r
    else
      match r with
      | h :: t => (b :: h) :: t
      | [] => [[b]]

/-- The bytes Python 2 `str.strip()` removes: space, tab, newline,
vertical tab, form feed, carriage return. -/
def isPySpace (b : Nat) : Bool :=
  b = 32 || b = 9 || b = 10 || b = 11 || b = 12 || b = 13

/-- Python `str.strip()`: drop whitespace bytes from both ends. -/
def pyStrip (l : List Nat) : List Nat :=
  (((l.dropWhile isPySpace).reverse.dropWhile isPySpace)).reverse

/-- Python 2 `repr` of one byte inside a `str` literal (used by
`unicode(list_of_str)`): escape backslash, the quote character, tab,
newline, carriage return, and non-printable bytes as `\xhh`. -/
def pyReprByte (useDouble : Bool) (b : Nat) : List Char :=
  if b = 92 then ['\\', '\\']
  else if b = 39 && !useDouble then ['\\', '\'']
  else if b = 9 then ['\\', 't']
  else if b = 10 then ['\\', 'n']
  else if b = 13 then ['\\', 'r']
  else if b < 32 || 127 ≤ b then ['\\', 'x', hexDigit (b / 16 % 16), hexDigit (b % 16)]
  else [Char.ofNat b]

/-- Python 2 `repr` of a byte string: single-quoted unless the string
contains a single quote but no double quote. -/
def pyReprBytes (v : List Nat) : List Char :=
  let useDouble := v.contains 39 && !v.contains 34
  let q := if useDouble then '"' else '\''
  q :: v.flatMap (pyReprByte useDouble) ++ [q]

/-- Python 2 `unicode(lst)` for a list of byte strings: the `repr` of
the list, e.g. `['ab', 'cd']`.  This is the fallback value built by the
default attribute branch of `build_json` on a `UnicodeDecodeError`. -/
def pyReprStrList (vs : List (List Nat)) : String :=
  String.mk ('[' :: (List.intercalate [',', ' '] (vs.map pyReprBytes)) ++ [']'])

/-! ## `objectGUID` decoding (`uuid.UUID(bytes=...)`) -/

/-- Two lowercase hex characters for one byte. -/
def byteHex (b : Nat) : List Char := [hexDigit (b / 16 % 16), hexDigit (b % 16)]

/-- Canonical hyphenated UUID string of 16 bytes (8-4-4-4-12 hex digits),
the `str()` of `uuid.UUID(bytes=...)`. -/
def guidStr (b : List Nat) : String :=
  let h := b.flatMap byteHex
  String.mk (h.take 8) ++ "-" ++ String.mk ((h.drop 8).take 4) ++ "-" ++
    String.mk ((h.drop 12).take 4) ++ "-" ++ String.mk ((h.drop 16).take 4) ++
    "-" ++ String.mk (h.drop 20)

/-- `unicode(uuid.UUID(bytes=objectGUID))`: `uuid.UUID` raises
`ValueError` unless given exactly 16 bytes. -/
def decodeGuid (b : List Nat) : Except PyErr String :=
  if b.length = 16 then .ok (guidStr b) else .error .valueError

/-- The `objectGUID` branch of `build_json`: decode every raw value in
order, any failure propagating as the Python exception would. -/
def guidLoop : List (List Nat) → Except PyErr (List String)
  | [] => .ok []
  | g :: rest => do
    let s ← decodeGuid g
    let l ← guidLoop rest
    .ok (s :: l)

/-! ## `objectSid` decoding (`AD_parser.decode_sid`) -/

/-- Little-endian unsigned 32-bit read of the first four bytes,
`struct.unpack('<L', ...)`; only used under the length assertion, which
guarantees four bytes are present. -/
def leU32at : List Nat → Nat
  | a :: b :: c :: d :: _ => a + 256 * b + 65536 * c + 16777216 * d
  | _ => 0

/-- The string a successful `decode_sid` builds for one value:
`'S-' + version + '-' + authority` followed by `'-' + subauthority` for
each of the `n` four-byte little-endian groups of `binary`. -/
def sidValue (v authority n : Nat) (binary : List Nat) : String :=
  (List.range n).foldl
    (fun acc i => acc ++ "-" ++ toString (leU32at (binary.drop (4 * i))))
    ("S-" ++ toString v ++ "-" ++ toString authority)

/-- `decode_sid` on a single raw value.  Failures mirror the Python
exceptions in source order: `struct.error` when a slice is too short for
its format, `AssertionError` when the revision byte is not 1 or the
remaining length is not `4 * N`. -/
def decode_sid_one (objectSid : List Nat) : Except PyErr String :=
  match objectSid with
  | [] => .error .structError
  | v :: rest =>
    if v ≠ 1 then .error .assertionError
    else
      match rest with
      | [] => .error .structError
      | n :: rest2 =>
        if rest2.length < 6 then .error .structError
        else
          let authority := (rest2.take 6).foldl (fun a b => a * 256 + b) 0
          let binary := rest2.drop 6
          if binary.length ≠ 4 * n then .error .assertionError
          else .ok (sidValue v authority n binary)

/-- `AD_parser.decode_sid`: decode each raw value in order; the first
failure aborts the whole call (uncaught exception). -/
def decode_sid : List (List Nat) → Except PyErr (List String)
  | [] => .ok []
  | s :: rest => do
    let x ← decode_sid_one s
    let xs ← decode_sid rest
    .ok (x :: xs)

/-! ## `mail` decoding -/

/-- Decoding of one already-split-and-stripped mail piece: Python first
tries `unicode(mail)` (strict ASCII); on `UnicodeDecodeError` it falls
back to `mail.decode('utf-8')`, whose own failure is uncaught. -/
def mailPieceDecode (p : List Nat) : Except PyErr String :=
  match pyUnicodeAscii p with
  | some s => .ok s
  | none =>
    match utf8Decode? p with
    | some s => .ok s
    | none => .error .unicodeDecodeError

/-- Decode a list of mail pieces in order, first failure aborting. -/
def mailPieces : List (List Nat) → Except PyErr (List String)
  | [] => .ok []
  | p :: rest => do
    let s ← mailPieceDecode p
    let l ← mailPieces rest
    .ok (s :: l)

/-- The `mail` branch of `build_json` for one raw value: split on
commas, strip each piece, decode each stripped piece in order. -/
def mailValue (v : List Nat) : Except PyErr (List String) :=
  mailPieces ((pySplitComma v).map pyStrip)

/-- The `mail` branch over the whole raw value list: pieces from all raw
values accumulate into one flat list. -/
def mailList : List (List Nat) → Except PyErr (List String)
  | [] => .ok []
  | v :: rest => do
    let a ← mailValue v
    let b ← mailList rest
    .ok (a ++ b)

/-! ## Default attribute decoding -/

/-- The `try` body of the default branch: decode every raw value as
strict UTF-8; `none` models the caught `UnicodeDecodeError`. -/
def decodeAllUtf8 : List (List Nat) → Option (List String)
  | [] => some []
  | v :: rest =>
    match utf8Decode? v, decodeAllUtf8 rest with
    | some s, some l => some (s :: l)
    | _, _ => none

/-! ## Per-attribute dispatch and record construction (`build_json`) -/

/-- The per-attribute dispatch of `build_json`: `objectGUID`,
`objectSid` and `mail` decode to string sequences; every other
attribute decodes each value as UTF-8, falling back to the single
`unicode(item[1])` repr string when any value fails. -/
def processAttr (key : String) (vals : List (List Nat)) : Except PyErr JVal :=
  if key = "objectGUID" then do
    let l ← guidLoop vals
    .ok (.arr l)
  else if key = "objectSid" then do
    let l ← decode_sid vals
    .ok (.arr l)
  else if key = "mail" then do
    let l ← mailList vals
    .ok (.arr l)
  else
    match decodeAllUtf8 vals with
    | some l => .ok (.arr l)
    | none => .ok (.str (pyReprStrList vals))

/-- Python dict assignment `d[k] = v` on an insertion-ordered
association list: overwrite in place if the key exists, else append. -/
def dictSet (k : String) (v : JVal) (d : List (String × JVal)) :
    List (String × JVal) :=
  if d.any (·.1 = k) then d.map (fun p => if p.1 = k then (k, v) else p)
  else d ++ [(k, v)]

/-- The attribute loop of `build_json`: process each attribute of the
entry in iteration order, storing the decoded value under the attribute
name; the first uncaught exception aborts the record. -/
def attrsLoop (d : List (String × JVal)) :
    List (String × List (List Nat)) → Except PyErr (List (String × JVal))
  | [] => .ok d
  | (k, vs) :: rest => do
    let v ← processAttr k vs
    attrsLoop (dictSet k v d) rest

/-- Build the `json_output` dict for one entry: the four provenance
fields (`t` is the `unicode(time.mktime(time.localtime()))` string
sampled for this record) followed by the attribute loop. -/
def processEntry (t src stype svalue : String) (e : Entry) :
    Except PyErr (List (String × JVal)) :=
  let d0 := dictSet "extractTime" (.str t) []
  let d1 := dictSet "datasource" (.str src) d0
  let d2 := dictSet "datasource_type" (.str stype) d1
  let d3 := dictSet "datasource_value" (.str svalue) d2
  attrsLoop d3 e.attrs

/-- The record loop of `build_json`: `clock i` is the timestamp string
sampled at the `i`-th record.  Returns the records serialized before the
run ended (all of them, or those written before an uncaught exception)
together with the exception, if any. -/
def writeLoop (clock : Nat → String) (src stype svalue : String) :
    Nat → List Entry → List (List (String × JVal)) × Option PyErr
  | _, [] => ([], none)
  | i, e :: es =>
    match processEntry (clock i) src stype svalue e with
    | .error err => ([], some err)
    | .ok r =>
      let (rs, res) := writeLoop clock src stype svalue (i + 1) es
      (r :: rs, res)

/-- `AD_parser.build_json`: raise `ValueError` when the output path
names an existing directory, before touching any record; otherwise
serialize the records one by one. -/
def build_json (outputIsDir : Bool) (clock : Nat → String)
    (src stype svalue : String) (search_results : List Entry) :
    List (List (String × JVal)) × Option PyErr :=
  if outputIsDir then ([], some .valueError)
  else writeLoop clock src stype svalue 0 search_results

/-! ## JSON serialization (`json.dump(..., indent=4, separators=(',', ': '),
ensure_ascii=False, sort_keys=True)` followed by `f.write(u'\n')`) -/

/-- JSON string escaping with `ensure_ascii=False`. -/
def jsonEscChar (c : Char) : List Char :=
  if c = '"' then ['\\', '"']
  else if c = '\\' then ['\\', '\\']
  else if c = Char.ofNat 8 then ['\\', 'b']
  else if c = Char.ofNat 9 then ['\\', 't']
  else if c = Char.ofNat 10 then ['\\', 'n']
  else if c = Char.ofNat 12 then ['\\', 'f']
  else if c = Char.ofNat 13 then ['\\', 'r']
  else if c.toNat < 32 then
    ['\\', 'u', '0', '0', hexDigit (c.toNat / 16 % 16), hexDigit (c.toNat % 16)]
  else [c]

/-- A JSON string literal. -/
def jsonQuote (s : String) : String :=
  String.mk ('"' :: s.data.flatMap jsonEscChar ++ ['"'])

/-- Lexicographic comparison of character lists by code point — the
order in which Python 2 `sorted` ranks the (byte-string) keys. -/
def charListLt : List Char → List Char → Bool
  | [], [] => false
  | [], _ :: _ => true
  | _ :: _, [] => false
  | a :: as, b :: bs =>
    if a.toNat < b.toNat then true
    else if b.toNat < a.toNat then false
    else charListLt as bs

/-- Key order used by `sort_keys=True` (computable form of `String` ≤). -/
def keyLe (a b : String) : Bool := ! charListLt b.data a.data

/-- Stable insertion into a key-sorted association list. -/
def insertPair (p : String × JVal) :
    List (String × JVal) → List (String × JVal)
  | [] => [p]
  | q :: rest =>
    if keyLe p.1 q.1 then p :: q :: rest else q :: insertPair p rest

/-- `sort_keys=True`: stable sort of the dict items by key. -/
def sortPairs : List (String × JVal) → List (String × JVal)
  | [] => []
  | p :: rest => insertPair p (sortPairs rest)

/-- Render one value at nesting depth 1 of the record object, as
`json.dump` with `indent=4` does: strings inline, non-empty sequences
across lines indented by 8 spaces with the bracket closed at 4. -/
def renderJVal : JVal → String
  | .str s => jsonQuote s
  | .arr [] => "[]"
  | .arr l =>
    "[\n" ++
      String.intercalate ",\n" (l.map (fun s => "        " ++ jsonQuote s)) ++
      "\n    ]"

/-- `json.dump` of one record with `indent=4`, `separators=(',', ': ')`,
`sort_keys=True`. -/
def pyJsonDump (rec : List (String × JVal)) : String :=
  match sortPairs rec with
  | [] => "\x7b\x7d"
  | items =>
    "\x7b\n" ++
      String.intercalate ",\n"
        (items.map (fun p => "    " ++ jsonQuote p.1 ++ ": " ++ renderJVal p.2)) ++
      "\n\x7d"

/-- The file content `build_json` writes: each record's JSON dump
followed by one newline. -/
def serializeAll (recs : List (List (String × JVal))) : String :=
  String.join (recs.map (fun r => pyJsonDump r ++ "\n"))

/-! ## `AD_parser.paged_search` -/

/-- One server-side response control as seen through python-ldap:
whether its `controlType` is the RFC 2696 page OID, and its decoded
`controlValue` (size estimate, cookie bytes). -/
structure LdapCtrl where
  isPageCtrl : Bool
  est : Nat
  cookie : List Nat
  deriving DecidableEq, Repr

/-- One `result3` round-trip result: the entries delivered this round
and the response controls. -/
structure LdapResponse (α : Type) where
  rdata : List α
  rctrls : List LdapCtrl
  deriving DecidableEq, Repr

/-- The `while True` loop of `paged_search`, consuming one response per
round trip.  Returns `(all_results, round_trips, warned)`; `none` means
the modelled response sequence ran out while the code would have issued
another request. -/
def paged_search_loop {α : Type} :
    List (LdapResponse α) → List α → Option (List α × Nat × Bool)
  | [], _ => none
  | resp :: rest, acc =>
    let acc2 := acc ++ resp.rdata
    match (resp.rctrls.filter (·.isPageCtrl)).head? with
    | some c =>
      if c.cookie ≠ [] then
        match paged_search_loop rest acc2 with
        | some (res, n, w) => some (res, n + 1, w)
        | none => none
      else some (acc2, 1, false)
    | none => some (acc2, 1, true)

/-- `AD_parser.paged_search` against a server modelled by the sequence
of responses it returns, one per round trip. -/
def paged_search {α : Type} (responses : List (LdapResponse α)) :
    Option (List α × Nat × Bool) :=
  paged_search_loop responses []

/-- Modelled from the spec: a server that honors RFC 2696 paging
delivers full pages of `pageSize` entries, attaching a page-response
control whose cookie is non-empty exactly while entries remain.  The
`fuel` argument only bounds the recursion; `entries.length` is always
enough when `0 < pageSize`. -/
def pagesOfF {α : Type} (pageSize : Nat) :
    Nat → List α → List (LdapResponse α)
  | 0, e => [⟨e, [⟨true, 0, []⟩]⟩]
  | fuel + 1, e =>
    if e.length ≤ pageSize then [⟨e, [⟨true, 0, []⟩]⟩]
    else ⟨e.take pageSize, [⟨true, 0, [1]⟩]⟩ :: pagesOfF pageSize fuel (e.drop pageSize)

/-- Modelled from the spec: the full response sequence of a paging
server holding `entries`. -/
def pagesOf {α : Type} (pageSize : Nat) (entries : List α) :
    List (LdapResponse α) :=
  pagesOfF pageSize entries.length entries

/-! ## Spec-side definitions (for refinement statements) -/

/-- Modelled from the claim: `k` big-endian bytes of `n`. -/
def beBytes : Nat → Nat → List Nat
  | 0, _ => []
  | k + 1, n => beBytes k (n / 256) ++ [n % 256]

/-- Modelled from the claim: the four little-endian bytes of a 32-bit
sub-authority group. -/
def le4 (s : Nat) : List Nat :=
  [s % 256, s / 256 % 256, s / 65536 % 256, s / 16777216 % 256]

/-- Modelled from the claim: the byte value of a well-formed SID with
revision `rev`, 48-bit big-endian authority `auth` and little-endian
32-bit sub-authority groups `subs` (byte 1 is the group count). -/
def mkSidBytes (rev auth : Nat) (subs : List Nat) : List Nat :=
  rev :: subs.length :: (beBytes 6 auth ++ subs.flatMap le4)

/-- The claim's expected SID rendering of the sub-authority list: each
value appended after a dash. -/
def dashJoin : List Nat → String
  | [] => ""
  | s :: rest => "-" ++ toString s ++ dashJoin rest

/-- The four provenance keys every record carries. -/
def metaKeys : List String :=
  ["extractTime", "datasource", "datasource_type", "datasource_value"]

/-- ASCII byte encoding of a string all of whose characters are below
128 (how the test inputs of the claims enter the byte-level model). -/
def asciiBytes (s : String) : List Nat := s.data.map Char.toNat

/-- Modelled from the spec: several addresses packed into one raw mail
value, separated by a comma and a space. -/
def commaSpaceJoin : List (List Nat) → List Nat
  | [] => []
  | [b] => b
  | b :: rest => b ++ 44 :: 32 :: commaSpaceJoin rest

/-- Decode all-ASCII bytes to the corresponding string. -/
def asciiStr (b : List Nat) : String := String.mk (b.map Char.ofNat)

/-- The value `processAttr` stores for an attribute, defaulting on the
(excluded) error case; used to state which pairs a finished record holds. -/
def attrValD (k : String) (vs : List (List Nat)) : JVal :=
  match processAttr k vs with
  | .ok v => v
  | .error _ => .arr []

/-! ## Lemmas about the SID decoder -/

theorem beBytes_length (k n : Nat) : (beBytes k n).length = k := by
  induction k generalizing n with
  | zero => simp [beBytes]
  | succ k ih => simp [beBytes, ih]

theorem beBytes_foldl (k : Nat) :
    ∀ n, n < 256 ^ k → (beBytes k n).foldl (fun a b => a * 256 + b) 0 = n := by
  induction k with
  | zero =>
    intro n hn
    interval_cases n
    simp [beBytes]
  | succ k ih =>
    intro n hn
    have hdiv : n / 256 < 256 ^ k := by
      rw [Nat.div_lt_iff_lt_mul (by norm_num : (0:Nat) < 256)]
      calc n < 256 ^ (k + 1) := hn
        _ = 256 ^ k * 256 := by rw [pow_succ]
    rw [beBytes, List.foldl_append, ih (n / 256) hdiv]
    simp only [List.foldl_cons, List.foldl_nil]
    omega

theorem le4_length (s : Nat) : (le4 s).length = 4 := by simp [le4]

theorem flatMap_le4_length (subs : List Nat) :
    (subs.flatMap le4).length = 4 * subs.length := by
  induction subs with
  | nil => simp
  | cons s rest ih => simp [List.flatMap_cons, ih, le4]; omega

theorem leU32at_le4 (s : Nat) (hs : s < 2 ^ 32) (tail : List Nat) :
    leU32at (le4 s ++ tail) = s := by
  simp only [le4, List.cons_append, List.nil_append, leU32at]
  omega

theorem subs_extract (subs : List Nat) (h : ∀ s ∈ subs, s < 2 ^ 32) :
    (List.range subs.length).map
      (fun i => leU32at ((subs.flatMap le4).drop (4 * i))) = subs := by
  induction subs with
  | nil => simp
  | cons s rest ih =>
    have hs : s < 2 ^ 32 := h s (by simp)
    have hrest : ∀ x ∈ rest, x < 2 ^ 32 := fun x hx => h x (by simp [hx])
    rw [List.length_cons, List.range_succ_eq_map, List.map_cons, List.map_map]
    have hdrop : ∀ i : Nat,
        ((s :: rest).flatMap le4).drop (4 * (i + 1)) =
          (rest.flatMap le4).drop (4 * i) := by
      intro i
      have h4 : 4 * (i + 1) = 4 + 4 * i := by ring
      rw [h4, ← List.drop_drop]
      have hd4 : List.drop 4 ((s :: rest).flatMap le4) = rest.flatMap le4 := by
        simp [List.flatMap_cons, le4]
      rw [hd4]
    have h0 : leU32at (List.drop (4 * 0) ((s :: rest).flatMap le4)) = s := by
      rw [Nat.mul_zero, List.drop_zero, List.flatMap_cons]
      exact leU32at_le4 s hs _
    rw [h0]
    congr 1
    have hmap : List.map
        ((fun i => leU32at (List.drop (4 * i) ((s :: rest).flatMap le4))) ∘ Nat.succ)
        (List.range rest.length) =
        List.map (fun i => leU32at (List.drop (4 * i) (rest.flatMap le4)))
          (List.range rest.length) := by
      apply List.map_congr_left
      intro i _
      simp only [Function.comp_apply, Nat.succ_eq_add_one]
      rw [hdrop i]
    rw [hmap, ih hrest]

theorem foldl_dash (l : List Nat) :
    ∀ pre : String,
      l.foldl (fun acc m => acc ++ "-" ++ toString m) pre = pre ++ dashJoin l := by
  induction l with
  | nil =>
    intro pre
    show pre = pre ++ ""
    simp
  | cons m rest ih =>
    intro pre
    rw [List.foldl_cons, ih, dashJoin]
    simp [String.append_assoc]

theorem decode_sid_one_mk (auth : Nat) (subs : List Nat)
    (hA : auth < 2 ^ 48) (hS : ∀ s ∈ subs, s < 2 ^ 32) :
    decode_sid_one (mkSidBytes 1 auth subs) =
      .ok ("S-1-" ++ toString auth ++ dashJoin subs) := by
  have hlen : (beBytes 6 auth ++ subs.flatMap le4).length =
      6 + 4 * subs.length := by
    rw [List.length_append, beBytes_length, flatMap_le4_length]
  have htake : (beBytes 6 auth ++ subs.flatMap le4).take 6 = beBytes 6 auth := by
    conv_lhs => rw [show (6:Nat) = (beBytes 6 auth).length from (beBytes_length 6 auth).symm]
    exact List.take_left _ _
  have hdrop : (beBytes 6 auth ++ subs.flatMap le4).drop 6 = subs.flatMap le4 := by
    conv_lhs => rw [show (6:Nat) = (beBytes 6 auth).length from (beBytes_length 6 auth).symm]
    exact List.drop_left _ _
  have hauth : auth < 256 ^ 6 := by
    calc auth < 2 ^ 48 := hA
      _ = 256 ^ 6 := by norm_num
  rw [mkSidBytes, decode_sid_one]
  simp only [if_neg (by decide : ¬ (1 ≠ 1))]
  rw [if_neg (by omega : ¬ (beBytes 6 auth ++ subs.flatMap le4).length < 6)]
  rw [htake, hdrop, beBytes_foldl 6 auth hauth]
  rw [if_neg (show ¬ (subs.flatMap le4).length ≠ 4 * subs.length by
    rw [flatMap_le4_length]; omega)]
  congr 1
  rw [sidValue, ← List.foldl_map (fun i => leU32at ((subs.flatMap le4).drop (4 * i)))
    (fun acc m => acc ++ "-" ++ toString m), subs_extract subs hS, foldl_dash]
  congr 1

/-- C1: for every well-formed SID byte value (byte 0 equal to 1, byte 1
the sub-authority count, bytes 2-7 a big-endian 48-bit authority,
followed by exactly that many little-endian 32-bit groups), `decode_sid`
produces `"S-" + revision + "-" + authority` followed by each
sub-authority after a dash; in particular the value built from
revision 1, authority 5 and sub-authorities [21, 100, 200, 1001] decodes
to `"S-1-5-21-100-200-1001"`. -/
theorem decode_sid_wellformed (auth : Nat) (subs : List Nat)
    (hA : auth < 2 ^ 48) (_hN : subs.length < 256)
    (hS : ∀ s ∈ subs, s < 2 ^ 32) :
    decode_sid [mkSidBytes 1 auth subs] =
      .ok ["S-1-" ++ toString auth ++ dashJoin subs] ∧
    decode_sid [mkSidBytes 1 5 [21, 100, 200, 1001]] =
      .ok ["S-1-5-21-100-200-1001"] := by
  refine ⟨?_, rfl⟩
  rw [decode_sid, decode_sid_one_mk auth subs hA hS]
  rfl

/-- Witness for `decode_sid_wellformed` at authority 5 and
sub-authorities [21, 100, 200, 1001]. -/
theorem decode_sid_wellformed_witness :
    decode_sid [mkSidBytes 1 5 [21, 100, 200, 1001]] =
      .ok ["S-1-" ++ toString 5 ++ dashJoin [21, 100, 200, 1001]] ∧
    decode_sid [mkSidBytes 1 5 [21, 100, 200, 1001]] =
      .ok ["S-1-5-21-100-200-1001"] :=
  decode_sid_wellformed 5 [21, 100, 200, 1001] (by norm_num) (by norm_num)
    (by norm_num)

/-! ## Lemmas about the paginated query engine -/

theorem paged_search_loop_pages {α : Type} (p : Nat) (hp : 0 < p) :
    ∀ (fuel : Nat) (e acc : List α), e.length ≤ fuel →
      paged_search_loop (pagesOfF p fuel e) acc =
        some (acc ++ e, (pagesOfF p fuel e).length, false) := by
  intro fuel
  induction fuel with
  | zero =>
    intro e acc he
    have he0 : e = [] := List.eq_nil_of_length_eq_zero (Nat.le_zero.mp he)
    subst he0
    rfl
  | succ fuel ih =>
    intro e acc he
    by_cases hle : e.length ≤ p
    · rw [pagesOfF, if_pos hle]
      simp [paged_search_loop]
    · rw [pagesOfF, if_neg hle]
      have hrec := ih (e.drop p) (acc ++ e.take p)
        (by rw [List.length_drop]; omega)
      rw [paged_search_loop]
      simp only [List.filter, List.head?]
      rw [if_pos (show ([1] : List Nat) ≠ [] by simp), hrec]
      simp [List.append_assoc, List.take_append_drop]

theorem pagesOfF_length_le {α : Type} (p fuel : Nat) (e : List α)
    (h : e.length ≤ p) : (pagesOfF p fuel e).length = 1 := by
  cases fuel with
  | zero => rfl
  | succ fuel =>
    rw [pagesOfF, if_pos h]
    rfl

theorem pagesOfF_length_kr {α : Type} (p : Nat) (hp : 0 < p) (r : Nat)
    (hr : 0 < r) (hrp : r ≤ p) :
    ∀ (k fuel : Nat) (e : List α), e.length = k * p + r → e.length ≤ fuel →
      (pagesOfF p fuel e).length = k + 1 := by
  intro k
  induction k with
  | zero =>
    intro fuel e hlen hf
    exact pagesOfF_length_le p fuel e (by omega)
  | succ k ih =>
    intro fuel e hlen hf
    have hmul : (k + 1) * p = k * p + p := by ring
    have hgt : ¬ e.length ≤ p := by
      rw [hlen, hmul]
      omega
    cases fuel with
    | zero => omega
    | succ fuel =>
      rw [pagesOfF, if_neg hgt, List.length_cons]
      have : (pagesOfF p fuel (e.drop p)).length = k + 1 := by
        apply ih fuel (e.drop p)
        · rw [List.length_drop, hlen, hmul]
          omega
        · rw [List.length_drop]
          omega
      omega

/-- C2: against a server that honors paging (modelled by `pagesOf`,
which serves full pages and a non-empty cookie exactly while entries
remain), a search yielding at most `pageSize` entries takes exactly one
round trip, and one yielding `k * pageSize + r` entries (`r > 0`,
`k ≥ 1`) takes exactly `k + 1` round trips; in both cases all entries
come back with no duplicates and no omissions, in arrival order, and no
warning is signalled. -/
theorem paged_search_round_trips {α : Type} (p : Nat) (entries : List α)
    (hp : 0 < p) :
    (entries.length ≤ p →
      paged_search (pagesOf p entries) = some (entries, 1, false)) ∧
    (∀ k r, 1 ≤ k → 0 < r → r ≤ p → entries.length = k * p + r →
      paged_search (pagesOf p entries) = some (entries, k + 1, false)) := by
  constructor
  · intro h
    rw [paged_search, pagesOf,
      paged_search_loop_pages p hp entries.length entries [] le_rfl,
      pagesOfF_length_le p entries.length entries h]
    simp
  · intro k r hk hr hrp hlen
    rw [paged_search, pagesOf,
      paged_search_loop_pages p hp entries.length entries [] le_rfl,
      pagesOfF_length_kr p hp r hr hrp k entries.length entries hlen le_rfl]
    simp

/-- Witness for `paged_search_round_trips`: page size 2 over three
entries takes 2 round trips and returns all three entries. -/
theorem paged_search_round_trips_witness :
    paged_search (pagesOf 2 [1, 2, 3]) = some ([1, 2, 3], 1 + 1, false) :=
  (paged_search_round_trips 2 [1, 2, 3] (by norm_num)).2 1 1 (le_refl 1)
    (by norm_num) (by norm_num) (by norm_num)

theorem paged_search_loop_skip_prefix {α : Type} (resp : LdapResponse α)
    (rest : List (LdapResponse α))
    (hresp : (resp.rctrls.filter (·.isPageCtrl)).head? = none) :
    ∀ rs : List (LdapResponse α),
      (∀ x ∈ rs, ∃ c, (x.rctrls.filter (·.isPageCtrl)).head? = some c ∧
        c.cookie ≠ []) →
      ∀ acc, paged_search_loop (rs ++ resp :: rest) acc =
        some (acc ++ rs.flatMap (·.rdata) ++ resp.rdata, rs.length + 1, true) := by
  intro rs
  induction rs with
  | nil =>
    intro _ acc
    rw [List.nil_append, paged_search_loop]
    simp only [hresp]
    simp
  | cons x rs ih =>
    intro hrs acc
    obtain ⟨c, hc, hck⟩ := hrs x (List.mem_cons_self x rs)
    rw [List.cons_append, paged_search_loop]
    simp only [hc]
    rw [if_pos hck, ih (fun y hy => hrs y (List.mem_cons_of_mem x hy)) (acc ++ x.rdata)]
    simp [List.append_assoc]

/-- C7: when a response carries no page-response control at all,
`paged_search` signals the warning (modelled by the `true` flag for the
printed warning), returns everything accumulated so far including that
round's entries, and does not fail. -/
theorem paged_search_missing_control {α : Type}
    (rs : List (LdapResponse α)) (resp : LdapResponse α)
    (rest : List (LdapResponse α))
    (hrs : ∀ x ∈ rs, ∃ c, (x.rctrls.filter (·.isPageCtrl)).head? = some c ∧
      c.cookie ≠ [])
    (hresp : (resp.rctrls.filter (·.isPageCtrl)).head? = none) :
    paged_search (rs ++ resp :: rest) =
      some (rs.flatMap (·.rdata) ++ resp.rdata, rs.length + 1, true) := by
  rw [paged_search, paged_search_loop_skip_prefix resp rest hresp rs hrs []]
  simp

/-- Witness for `paged_search_missing_control`: the very first response
lacks the control, so the single round's entries come back with the
warning flag set. -/
theorem paged_search_missing_control_witness :
    paged_search [({rdata := [5], rctrls := []} : LdapResponse Nat)] =
      some (([] : List (LdapResponse Nat)).flatMap (·.rdata) ++ [5],
        ([] : List (LdapResponse Nat)).length + 1, true) :=
  paged_search_missing_control [] ({rdata := [5], rctrls := []} : LdapResponse Nat)
    [] (by simp) rfl

/-! ## Lemmas about text decoding -/

theorem utf8DF_ascii : ∀ (fuel : Nat) (l : List Nat), l.length ≤ fuel →
    (∀ x ∈ l, x < 128) → utf8DF fuel l = some (l.map Char.ofNat) := by
  intro fuel
  induction fuel with
  | zero =>
    intro l hl _
    have hnil : l = [] := List.eq_nil_of_length_eq_zero (Nat.le_zero.mp hl)
    subst hnil
    rfl
  | succ fuel ih =>
    intro l hl h
    cases l with
    | nil => rfl
    | cons b rest =>
      have hb : b < 128 := h b (by simp)
      simp only [utf8DF, if_pos hb, ih rest (by simp at hl; omega)
        (fun x hx => h x (List.mem_cons_of_mem b hx))]
      rfl

theorem utf8D_ascii (l : List Nat) (h : ∀ x ∈ l, x < 128) :
    utf8D l = some (l.map Char.ofNat) :=
  utf8DF_ascii l.length l le_rfl h

theorem pyUnicodeAscii_utf8 (p : List Nat) (s : String)
    (h : pyUnicodeAscii p = some s) : utf8Decode? p = some s := by
  rw [pyUnicodeAscii] at h
  by_cases hall : p.all (· < 128)
  · rw [if_pos hall] at h
    have hlt : ∀ x ∈ p, x < 128 := by
      intro x hx
      have := (List.all_eq_true.mp hall) x hx
      exact of_decide_eq_true this
    rw [utf8Decode?, utf8D_ascii p hlt]
    exact h
  · rw [if_neg hall] at h
    exact absurd h (by simp)

theorem mailPieceDecode_utf8 (p : List Nat) (s : String)
    (h : utf8Decode? p = some s) : mailPieceDecode p = .ok s := by
  rw [mailPieceDecode]
  cases ha : pyUnicodeAscii p with
  | none => rw [h]
  | some s2 =>
    have := pyUnicodeAscii_utf8 p s2 ha
    rw [this] at h
    injection h with h
    rw [h]

theorem mailPieces_mapM : ∀ (ps : List (List Nat)) (l : List String),
    ps.mapM utf8Decode? = some l → mailPieces ps = .ok l := by
  intro ps
  induction ps with
  | nil =>
    intro l h
    simp only [List.mapM_nil, pure, Option.some.injEq] at h
    rw [← h]
    rfl
  | cons p ps ih =>
    intro l h
    rw [List.mapM_cons] at h
    cases hp : utf8Decode? p with
    | none => rw [hp] at h; exact Option.noConfusion h
    | some s =>
      rw [hp] at h
      cases hps : ps.mapM utf8Decode? with
      | none => rw [hps] at h; exact Option.noConfusion h
      | some l2 =>
        rw [hps] at h
        have hl : s :: l2 = l := Option.some.inj h
        rw [mailPieces, mailPieceDecode_utf8 p s hp, ih l2 hps, ← hl]
        rfl

theorem mailValue_mapM (v : List Nat) (l : List String)
    (h : ((pySplitComma v).map pyStrip).mapM utf8Decode? = some l) :
    mailValue v = .ok l :=
  mailPieces_mapM _ l h

theorem processAttr_mail (vals : List (List Nat)) :
    processAttr "mail" vals = (mailList vals).map .arr := by
  rw [processAttr, if_neg (by decide), if_neg (by decide), if_pos rfl]
  cases mailList vals <;> rfl

theorem processAttr_mail_single (v : List Nat) (l : List String)
    (h : ((pySplitComma v).map pyStrip).mapM utf8Decode? = some l) :
    processAttr "mail" [v] = .ok (.arr l) := by
  have hml : mailList [v] = .ok l := by
    rw [mailList, mailValue_mapM v l h]
    show Except.ok (l ++ []) = Except.ok l
    rw [List.append_nil]
  rw [processAttr_mail, hml]
  rfl

/-! ## Lemmas about comma splitting and stripping -/

theorem pySplitComma_exists_cons (l : List Nat) :
    ∃ h t, pySplitComma l = h :: t := by
  induction l with
  | nil => exact ⟨[], [], rfl⟩
  | cons b rest ih =>
    obtain ⟨h, t, hr⟩ := ih
    by_cases hb : b = 44
    · exact ⟨[], pySplitComma rest, by rw [pySplitComma]; simp [hb]⟩
    · refine ⟨b :: h, t, ?_⟩
      rw [pySplitComma]
      simp only [hr, if_neg hb]

theorem pySplitComma_no_comma : ∀ l : List Nat, 44 ∉ l → pySplitComma l = [l] := by
  intro l
  induction l with
  | nil => intro _; rfl
  | cons b rest ih =>
    intro h
    have hb : b ≠ 44 := fun e => h (e ▸ List.mem_cons_self b rest)
    have hr : 44 ∉ rest := fun hx => h (List.mem_cons_of_mem b hx)
    rw [pySplitComma]
    simp only [ih hr, if_neg hb]

theorem pySplitComma_append : ∀ xs : List Nat, 44 ∉ xs → ∀ ys,
    pySplitComma (xs ++ 44 :: ys) = xs :: pySplitComma ys := by
  intro xs
  induction xs with
  | nil =>
    intro _ ys
    rw [List.nil_append, pySplitComma]
    simp
  | cons x xs ih =>
    intro h ys
    have hx : x ≠ 44 := fun e => h (e ▸ List.mem_cons_self x xs)
    have hxs : 44 ∉ xs := fun hm => h (List.mem_cons_of_mem x hm)
    rw [List.cons_append, pySplitComma]
    simp only [ih hxs ys, if_neg hx]

theorem dropWhile_no (q : Nat → Bool) : ∀ l : List Nat,
    (∀ x ∈ l, q x = false) → l.dropWhile q = l := by
  intro l
  induction l with
  | nil => intro _; rfl
  | cons b rest _ =>
    intro h
    rw [List.dropWhile_cons, if_neg]
    rw [h b (List.mem_cons_self b rest)]
    simp

theorem pyStrip_no (l : List Nat) (h : ∀ x ∈ l, isPySpace x = false) :
    pyStrip l = l := by
  rw [pyStrip, dropWhile_no _ l h,
    dropWhile_no _ l.reverse (fun x hx => h x (List.mem_reverse.mp hx)),
    List.reverse_reverse]

theorem pyStrip_cons_space (l : List Nat) : pyStrip (32 :: l) = pyStrip l := by
  have hd : List.dropWhile isPySpace (32 :: l) = List.dropWhile isPySpace l := by
    rw [List.dropWhile_cons, if_pos (by rfl)]
  rw [pyStrip, hd, pyStrip]

theorem mailPieceDecode_ascii (b : List Nat) (h : ∀ x ∈ b, x < 128) :
    mailPieceDecode b = .ok (asciiStr b) := by
  have ha : pyUnicodeAscii b = some (asciiStr b) := by
    rw [pyUnicodeAscii,
      if_pos (List.all_eq_true.mpr fun x hx => decide_eq_true (h x hx))]
    rfl
  rw [mailPieceDecode, ha]

theorem mailValue_join : ∀ bs : List (List Nat), bs ≠ [] →
    (∀ b ∈ bs, b ≠ [] ∧ ∀ x ∈ b, x < 128 ∧ x ≠ 44 ∧ isPySpace x = false) →
    mailValue (commaSpaceJoin bs) = .ok (bs.map asciiStr) := by
  intro bs
  induction bs with
  | nil => intro h; exact absurd rfl h
  | cons b rest ih =>
    intro _ hg
    obtain ⟨hbne, hbx⟩ := hg b (List.mem_cons_self b rest)
    have hb44 : 44 ∉ b := fun hx => ((hbx 44 hx).2.1) rfl
    have hbsp : ∀ x ∈ b, isPySpace x = false := fun x hx => (hbx x hx).2.2
    have hblt : ∀ x ∈ b, x < 128 := fun x hx => (hbx x hx).1
    cases rest with
    | nil =>
      rw [show commaSpaceJoin [b] = b from rfl, mailValue,
        pySplitComma_no_comma b hb44, List.map_cons, pyStrip_no b hbsp,
        mailPieces, mailPieceDecode_ascii b hblt]
      rfl
    | cons b2 rest2 =>
      have hIH : mailValue (commaSpaceJoin (b2 :: rest2)) =
          .ok ((b2 :: rest2).map asciiStr) :=
        ih (by simp) (fun x hx => hg x (List.mem_cons_of_mem b hx))
      obtain ⟨h0, t0, hsplit⟩ := pySplitComma_exists_cons (commaSpaceJoin (b2 :: rest2))
      have hsplit32 : pySplitComma (32 :: commaSpaceJoin (b2 :: rest2)) =
          (32 :: h0) :: t0 := by
        rw [pySplitComma]
        simp only [hsplit, if_neg (by norm_num : (32:Nat) ≠ 44)]
      rw [show commaSpaceJoin (b :: b2 :: rest2) =
          b ++ 44 :: 32 :: commaSpaceJoin (b2 :: rest2) from rfl,
        mailValue, pySplitComma_append b hb44 _, hsplit32, List.map_cons,
        List.map_cons, pyStrip_no b hbsp, pyStrip_cons_space h0,
        mailPieces, mailPieceDecode_ascii b hblt]
      rw [mailValue, hsplit, List.map_cons] at hIH
      rw [hIH]
      rfl

/-- C6: the `mail` branch splits each raw value on commas, strips
whitespace from each piece and emits the pieces in order, one decoded
string each; in particular the raw value `"a@x.com, b@x.com"` decodes to
the two-element sequence `["a@x.com", "b@x.com"]`. -/
theorem mail_comma_split :
    (∀ bs : List (List Nat), bs ≠ [] →
      (∀ b ∈ bs, b ≠ [] ∧ ∀ x ∈ b, x < 128 ∧ x ≠ 44 ∧ isPySpace x = false) →
      processAttr "mail" [commaSpaceJoin bs] = .ok (.arr (bs.map asciiStr))) ∧
    processAttr "mail" [asciiBytes "a@x.com, b@x.com"] =
      .ok (.arr ["a@x.com", "b@x.com"]) := by
  constructor
  · intro bs hne hg
    have hml : mailList [commaSpaceJoin bs] = .ok (bs.map asciiStr) := by
      rw [mailList, mailValue_join bs hne hg]
      show Except.ok (bs.map asciiStr ++ []) = _
      rw [List.append_nil]
    rw [processAttr_mail, hml]
    rfl
  · rfl

/-- Witness for `mail_comma_split`: the packed value `"a, b"` splits
into the two stripped pieces `"a"` and `"b"`. -/
theorem mail_comma_split_witness :
    processAttr "mail" [commaSpaceJoin [[97], [98]]] =
      .ok (.arr ([[97], [98]].map asciiStr)) :=
  mail_comma_split.1 [[97], [98]] (by simp) (by decide)

/-! ## Lemmas about the per-attribute dispatch -/

theorem processAttr_guid (vals : List (List Nat)) :
    processAttr "objectGUID" vals = (guidLoop vals).map .arr := by
  rw [processAttr, if_pos rfl]
  cases guidLoop vals <;> rfl

theorem processAttr_sid (vals : List (List Nat)) :
    processAttr "objectSid" vals = (decode_sid vals).map .arr := by
  rw [processAttr, if_neg (by decide), if_pos rfl]
  cases decode_sid vals <;> rfl

theorem processAttr_default (k : String) (hk1 : k ≠ "objectGUID")
    (hk2 : k ≠ "objectSid") (hk3 : k ≠ "mail") (vals : List (List Nat)) :
    processAttr k vals =
      match decodeAllUtf8 vals with
      | some l => .ok (.arr l)
      | none => .ok (.str (pyReprStrList vals)) := by
  rw [processAttr, if_neg hk1, if_neg hk2, if_neg hk3]

theorem decode_sid_one_badrev (b : Nat) (tail : List Nat) (hb : b ≠ 1) :
    decode_sid_one (b :: tail) = .error .assertionError := by
  rw [decode_sid_one.eq_def]
  simp only [if_pos hb]

theorem decode_sid_one_badlen (n : Nat) (tail : List Nat)
    (h6 : ¬ tail.length < 6) (hlen : (tail.drop 6).length ≠ 4 * n) :
    decode_sid_one (1 :: n :: tail) = .error .assertionError := by
  rw [decode_sid_one.eq_def]
  simp only [if_neg (show ¬ (1:Nat) ≠ 1 by simp), if_neg h6, if_pos hlen]

theorem processAttr_sid_badrev (b : Nat) (tail : List Nat)
    (vs : List (List Nat)) (hb : b ≠ 1) :
    processAttr "objectSid" ((b :: tail) :: vs) = .error .assertionError := by
  rw [processAttr_sid, decode_sid, decode_sid_one_badrev b tail hb]
  rfl

theorem processAttr_sid_badlen (n : Nat) (tail : List Nat)
    (vs : List (List Nat)) (h6 : ¬ tail.length < 6)
    (hlen : (tail.drop 6).length ≠ 4 * n) :
    processAttr "objectSid" ((1 :: n :: tail) :: vs) = .error .assertionError := by
  rw [processAttr_sid, decode_sid, decode_sid_one_badlen n tail h6 hlen]
  rfl

/-- C3 (amended): a mail raw value all of whose stripped pieces are
valid UTF-8 is decoded without aborting (a piece that fails the strict
ASCII decode is recovered by the UTF-8 fallback), and the default branch
for an unrecognized attribute never raises (a strict-UTF-8 failure falls
back to the single combined repr string); but a SID raw value whose
revision byte is not 1, or whose remaining length is not `4 * N`, raises
an uncaught `AssertionError` that aborts the entry and the whole batch. -/
theorem decode_fault_handling :
    (∀ (v : List Nat) (l : List String),
      ((pySplitComma v).map pyStrip).mapM utf8Decode? = some l →
      processAttr "mail" [v] = .ok (.arr l)) ∧
    (∀ (k : String) (vals : List (List Nat)),
      k ≠ "objectGUID" → k ≠ "objectSid" → k ≠ "mail" →
      ∃ jv, processAttr k vals = .ok jv) ∧
    (∀ (b : Nat) (tail : List Nat) (vs : List (List Nat)), b ≠ 1 →
      processAttr "objectSid" ((b :: tail) :: vs) = .error .assertionError) ∧
    (∀ (n : Nat) (tail : List Nat) (vs : List (List Nat)),
      ¬ tail.length < 6 → (tail.drop 6).length ≠ 4 * n →
      processAttr "objectSid" ((1 :: n :: tail) :: vs) =
        .error .assertionError) := by
  refine ⟨processAttr_mail_single, ?_, processAttr_sid_badrev,
    processAttr_sid_badlen⟩
  intro k vals hk1 hk2 hk3
  rw [processAttr_default k hk1 hk2 hk3 vals]
  cases decodeAllUtf8 vals with
  | none => exact ⟨.str (pyReprStrList vals), rfl⟩
  | some l => exact ⟨.arr l, rfl⟩

/-- Witness for `decode_fault_handling`: the non-ASCII UTF-8 mail value
`é` is recovered, and the SID value with revision byte 2 raises. -/
theorem decode_fault_handling_witness :
    processAttr "mail" [[195, 169]] = .ok (.arr ["é"]) ∧
    processAttr "objectSid" [[2, 0, 0, 0, 0, 0, 0, 5]] =
      .error .assertionError :=
  ⟨decode_fault_handling.1 [195, 169] ["é"] (by decide),
   decode_fault_handling.2.2.1 2 [0, 0, 0, 0, 0, 0, 5] [] (by norm_num)⟩

/-- C3 counterexample: an entry holding a benign `cn` attribute and one
malformed SID (revision byte 2) aborts the whole `build_json` batch with
an uncaught `AssertionError`: no record is produced and the sibling
attribute's decoded value is lost, so the fault is not recovered
locally. -/
theorem decode_fault_aborts_batch :
    build_json false (fun _ => "1500000000.0") "dc01" "ad" "corp"
      [⟨"CN=x", [("cn", [[99, 110]]), ("objectSid", [[2, 0, 0, 0, 0, 0, 0, 5]])]⟩] =
      ([], some PyErr.assertionError) := rfl

/-! ## Lemmas about the default-branch value shape -/

theorem decodeAllUtf8_length : ∀ (vs : List (List Nat)) (l : List String),
    decodeAllUtf8 vs = some l → l.length = vs.length := by
  intro vs
  induction vs with
  | nil =>
    intro l h
    have hl : [] = l := Option.some.inj h
    rw [← hl]
    rfl
  | cons v rest ih =>
    intro l h
    rw [decodeAllUtf8] at h
    cases hv : utf8Decode? v with
    | none => rw [hv] at h; exact Option.noConfusion h
    | some s =>
      rw [hv] at h
      cases hr : decodeAllUtf8 rest with
      | none => rw [hr] at h; exact Option.noConfusion h
      | some l2 =>
        rw [hr] at h
        have : s :: l2 = l := Option.some.inj h
        rw [← this, List.length_cons, ih l2 hr, List.length_cons]

/-- C5 (amended): an unrecognized attribute whose raw values all decode
as UTF-8 text is stored as an ordered sequence of the decoded strings,
one per raw value in order — including the single-value case, which
yields a one-element sequence rather than a bare string; the bare-string
shape occurs only on the fallback path, when some raw value fails strict
decoding, and is then the single combined repr of the whole value
list. -/
theorem default_attr_shape (k : String) (vs : List (List Nat))
    (hk1 : k ≠ "objectGUID") (hk2 : k ≠ "objectSid") (hk3 : k ≠ "mail") :
    (∀ l, decodeAllUtf8 vs = some l →
      processAttr k vs = .ok (.arr l) ∧ l.length = vs.length) ∧
    (decodeAllUtf8 vs = none →
      processAttr k vs = .ok (.str (pyReprStrList vs))) := by
  constructor
  · intro l hl
    refine ⟨?_, decodeAllUtf8_length vs l hl⟩
    rw [processAttr_default k hk1 hk2 hk3 vs, hl]
  · intro hl
    rw [processAttr_default k hk1 hk2 hk3 vs, hl]

/-- Witness for `default_attr_shape`: the single valid raw value
`"bar"` of an unrecognized attribute becomes the one-element sequence
`["bar"]`. -/
theorem default_attr_shape_witness :
    processAttr "foo" [[98, 97, 114]] = .ok (.arr ["bar"]) ∧
    (["bar"] : List String).length = ([[98, 97, 114]] : List (List Nat)).length :=
  (default_attr_shape "foo" [[98, 97, 114]] (by decide) (by decide)
    (by decide)).1 ["bar"] (by decide)

/-- C5 counterexample: an unrecognized attribute with exactly one raw
value that decodes as valid text is stored as the one-element sequence
`["bar"]`, which is not the single string `"bar"` the claim expects. -/
theorem single_value_not_bare_string :
    processAttr "description" [[98, 97, 114]] = .ok (.arr ["bar"]) ∧
    JVal.arr ["bar"] ≠ JVal.str "bar" :=
  ⟨rfl, by decide⟩

/-! ## `build_json` and the output-path check -/

/-- C9 (amended): when the output path names an existing directory,
`build_json` raises `ValueError` before serializing any record, so
nothing reaches the sink; with a non-directory path and an empty result
set it completes without error.  (`ValueError` is not exclusive to this
check: see the counterexample.) -/
theorem build_json_isdir (clock : Nat → String) (src stype svalue : String)
    (search_results : List Entry) :
    build_json true clock src stype svalue search_results =
      ([], some PyErr.valueError) ∧
    build_json false clock src stype svalue [] = ([], none) :=
  ⟨rfl, rfl⟩

/-- C9 counterexample: with a perfectly good (non-directory) output
path, a 1-byte `objectGUID` raw value makes `uuid.UUID(bytes=...)`
raise `ValueError` as well, so `ValueError` is not raised exactly when
the output path is a directory. -/
theorem valueError_without_directory :
    build_json false (fun _ => "1500000000.0") "dc01" "ad" "corp"
      [⟨"CN=x", [("objectGUID", [[0]])]⟩] = ([], some PyErr.valueError) := rfl

/-! ## The recognized attributes always produce sequences -/

theorem map_arr_ok (X : Except PyErr (List String)) (v : JVal)
    (h : X.map .arr = .ok v) : ∃ l, v = .arr l := by
  cases X with
  | ok l => exact ⟨l, (Except.ok.inj h).symm⟩
  | error e => exact Except.noConfusion h

theorem processAttr_special_arr (k : String) (vs : List (List Nat)) (v : JVal)
    (hk : k = "objectGUID" ∨ k = "objectSid" ∨ k = "mail")
    (h : processAttr k vs = .ok v) : ∃ l, v = .arr l := by
  rcases hk with hk | hk | hk <;> subst hk
  · rw [processAttr_guid] at h
    exact map_arr_ok _ v h
  · rw [processAttr_sid] at h
    exact map_arr_ok _ v h
  · rw [processAttr_mail] at h
    exact map_arr_ok _ v h

theorem dictSet_mem (k : String) (v : JVal) (d : List (String × JVal))
    (a : String) (b : JVal) (h : (a, b) ∈ dictSet k v d) :
    (a, b) ∈ d ∨ (a = k ∧ b = v) := by
  rw [dictSet] at h
  by_cases hc : d.any (·.1 = k) = true
  · rw [if_pos hc] at h
    obtain ⟨p, hp, he⟩ := List.mem_map.mp h
    by_cases hpk : p.1 = k
    · rw [if_pos hpk] at he
      injection he with h1 h2
      exact Or.inr ⟨h1.symm, h2.symm⟩
    · rw [if_neg hpk] at he
      exact Or.inl (he ▸ hp)
  · rw [if_neg hc] at h
    rcases List.mem_append.mp h with h1 | h1
    · exact Or.inl h1
    · have h2 := List.mem_singleton.mp h1
      injection h2 with ha hb
      exact Or.inr ⟨ha, hb⟩

theorem attrsLoop_special : ∀ (attrs : List (String × List (List Nat)))
    (d rec : List (String × JVal)), attrsLoop d attrs = .ok rec →
    (∀ q ∈ d, (q.1 = "objectGUID" ∨ q.1 = "objectSid" ∨ q.1 = "mail") →
      ∃ l, q.2 = .arr l) →
    ∀ q ∈ rec, (q.1 = "objectGUID" ∨ q.1 = "objectSid" ∨ q.1 = "mail") →
      ∃ l, q.2 = .arr l := by
  intro attrs
  induction attrs with
  | nil =>
    intro d rec h hd
    have hdr : d = rec := Except.ok.inj h
    exact hdr ▸ hd
  | cons kv rest ih =>
    intro d rec h hd
    obtain ⟨k, vs⟩ := kv
    rw [attrsLoop] at h
    cases hpa : processAttr k vs with
    | error e2 =>
      rw [hpa] at h
      exact Except.noConfusion h
    | ok v =>
      rw [hpa] at h
      refine ih (dictSet k v d) rec h ?_
      intro q hq hk2
      obtain ⟨a, b⟩ := q
      rcases dictSet_mem k v d a b hq with hmem | ⟨ha, hb⟩
      · exact hd ⟨a, b⟩ hmem hk2
      · subst ha
        subst hb
        exact processAttr_special_arr a vs b hk2 hpa

/-- C10: in every record `build_json` produces, the recognized
attributes `objectGUID`, `objectSid` and `mail` are always stored as an
ordered sequence of strings — never collapsed to a single string, even
with exactly one raw value. -/
theorem special_attrs_sequences (t s ty sv : String) (e : Entry)
    (rec : List (String × JVal)) (h : processEntry t s ty sv e = .ok rec) :
    ∀ q ∈ rec, (q.1 = "objectGUID" ∨ q.1 = "objectSid" ∨ q.1 = "mail") →
      ∃ l, q.2 = .arr l := by
  have h2 : attrsLoop [("extractTime", JVal.str t), ("datasource", JVal.str s),
      ("datasource_type", JVal.str ty), ("datasource_value", JVal.str sv)]
      e.attrs = .ok rec := h
  refine attrsLoop_special e.attrs _ rec h2 ?_
  intro q hq hk2
  fin_cases hq <;> rcases hk2 with hx | hx | hx <;> simp at hx

/-- Witness for `special_attrs_sequences`: a `mail` attribute with the
single raw value `"a"` is stored as the one-element sequence. -/
theorem special_attrs_sequences_witness :
    ∃ l, (("mail", JVal.arr ["a"]) : String × JVal).2 = JVal.arr l :=
  special_attrs_sequences "T" "s" "t" "v" ⟨"d", [("mail", [[97]])]⟩
    [("extractTime", .str "T"), ("datasource", .str "s"),
      ("datasource_type", .str "t"), ("datasource_value", .str "v"),
      ("mail", .arr ["a"])] rfl ("mail", JVal.arr ["a"]) (by decide)
    (Or.inr (Or.inr rfl))

/-! ## The extraction timestamp is sampled per record -/

theorem lookup_map_set (k k2 : String) (v : JVal) (hk : k ≠ k2) :
    ∀ d : List (String × JVal),
      List.lookup k (d.map (fun p => if p.1 = k2 then (k2, v) else p)) =
        List.lookup k d := by
  have hbeq : (k == k2) = false := beq_eq_false_iff_ne.mpr hk
  intro d
  induction d with
  | nil => rfl
  | cons p rest ih =>
    obtain ⟨p1, p2⟩ := p
    rw [List.map_cons]
    by_cases hp : p1 = k2
    · rw [if_pos (show ((p1, p2) : String × JVal).1 = k2 from hp)]
      have hkp1 : (k == p1) = false := by rw [hp]; exact hbeq
      simp [List.lookup, hbeq, hkp1, ih]
    · rw [if_neg (show ¬ ((p1, p2) : String × JVal).1 = k2 from hp)]
      cases hkp : k == p1 <;> simp [List.lookup, hkp, ih]

theorem lookup_append_single (k k2 : String) (v : JVal) (hk : k ≠ k2) :
    ∀ d : List (String × JVal),
      List.lookup k (d ++ [(k2, v)]) = List.lookup k d := by
  have hbeq : (k == k2) = false := beq_eq_false_iff_ne.mpr hk
  intro d
  induction d with
  | nil => simp [List.lookup, hbeq]
  | cons p rest ih =>
    obtain ⟨p1, p2⟩ := p
    cases hkp : k == p1 <;> simp [List.lookup, hkp, ih]

theorem lookup_dictSet_ne (k k2 : String) (v : JVal) (d : List (String × JVal))
    (hk : k ≠ k2) : List.lookup k (dictSet k2 v d) = List.lookup k d := by
  rw [dictSet]
  by_cases hc : d.any (·.1 = k2) = true
  · rw [if_pos hc]
    exact lookup_map_set k k2 v hk d
  · rw [if_neg hc]
    exact lookup_append_single k k2 v hk d

theorem attrsLoop_lookup_ne (k : String) :
    ∀ (attrs : List (String × List (List Nat))) (d rec : List (String × JVal)),
      (∀ q ∈ attrs, q.1 ≠ k) → attrsLoop d attrs = .ok rec →
      List.lookup k rec = List.lookup k d := by
  intro attrs
  induction attrs with
  | nil =>
    intro d rec _ h
    have hdr : d = rec := Except.ok.inj h
    rw [hdr]
  | cons kv rest ih =>
    intro d rec hne h
    obtain ⟨k2, vs⟩ := kv
    rw [attrsLoop] at h
    cases hpa : processAttr k2 vs with
    | error e2 =>
      rw [hpa] at h
      exact Except.noConfusion h
    | ok v =>
      rw [hpa] at h
      have hk2 : k2 ≠ k := hne (k2, vs) (List.mem_cons_self _ _)
      rw [ih (dictSet k2 v d) rec (fun q hq => hne q (List.mem_cons_of_mem _ hq)) h]
      exact lookup_dictSet_ne k k2 v d (Ne.symm hk2)

theorem processEntry_extractTime (t s ty sv : String) (e : Entry)
    (rec : List (String × JVal))
    (hat : ∀ q ∈ e.attrs, q.1 ≠ "extractTime")
    (h : processEntry t s ty sv e = .ok rec) :
    List.lookup "extractTime" rec = some (.str t) := by
  have h2 : attrsLoop [("extractTime", JVal.str t), ("datasource", JVal.str s),
      ("datasource_type", JVal.str ty), ("datasource_value", JVal.str sv)]
      e.attrs = .ok rec := h
  rw [attrsLoop_lookup_ne "extractTime" e.attrs _ rec hat h2]
  rfl

theorem writeLoop_extractTime (clock : Nat → String) (s ty sv : String) :
    ∀ (es : List Entry) (i0 : Nat) (recs : List (List (String × JVal)))
      (err : Option PyErr),
      writeLoop clock s ty sv i0 es = (recs, err) →
      (∀ e ∈ es, ∀ q ∈ e.attrs, q.1 ≠ "extractTime") →
      ∀ j (hj : j < recs.length),
        List.lookup "extractTime" (recs.get ⟨j, hj⟩) =
          some (.str (clock (i0 + j))) := by
  intro es
  induction es with
  | nil =>
    intro i0 recs err h _ j hj
    have h1 : (([] : List (List (String × JVal))), (none : Option PyErr)) =
        (recs, err) := h
    injection h1 with h1a h1b
    subst h1a
    exact absurd hj (by simp)
  | cons e es ih =>
    intro i0 recs err h hne j hj
    rw [writeLoop] at h
    cases hpe : processEntry (clock i0) s ty sv e with
    | error er =>
      rw [hpe] at h
      have h1 : (([] : List (List (String × JVal))), (some er : Option PyErr)) =
          (recs, err) := h
      injection h1 with h1a h1b
      subst h1a
      exact absurd hj (by simp)
    | ok r =>
      rw [hpe] at h
      have h1 : (r :: (writeLoop clock s ty sv (i0 + 1) es).1,
          (writeLoop clock s ty sv (i0 + 1) es).2) = (recs, err) := h
      injection h1 with h1a h1b
      subst h1a
      cases j with
      | zero =>
        have := processEntry_extractTime (clock i0) s ty sv e r
          (hne e (List.mem_cons_self _ _)) hpe
        simpa using this
      | succ j =>
        have hj2 : j < (writeLoop clock s ty sv (i0 + 1) es).1.length := by
          have := hj
          simp at this
          omega
        have hrec := ih (i0 + 1) (writeLoop clock s ty sv (i0 + 1) es).1
          (writeLoop clock s ty sv (i0 + 1) es).2 rfl
          (fun e2 he2 => hne e2 (List.mem_cons_of_mem _ he2)) j hj2
        have harith : i0 + 1 + j = i0 + (j + 1) := by omega
        rw [harith] at hrec
        exact hrec

/-- C4 (amended): `extractTime` is sampled once per record, not once per
run: the `i`-th record of a run carries the clock string read at the
`i`-th iteration, so records of one run agree only when the clock string
does not change during the run. -/
theorem extractTime_per_record (clock : Nat → String)
    (src stype svalue : String) (entries : List Entry)
    (recs : List (List (String × JVal))) (err : Option PyErr)
    (h : build_json false clock src stype svalue entries = (recs, err))
    (hne : ∀ e ∈ entries, ∀ q ∈ e.attrs, q.1 ≠ "extractTime") :
    ∀ j (hj : j < recs.length),
      List.lookup "extractTime" (recs.get ⟨j, hj⟩) = some (.str (clock j)) := by
  intro j hj
  have h2 : writeLoop clock src stype svalue 0 entries = (recs, err) := h
  have := writeLoop_extractTime clock src stype svalue entries 0 recs err h2 hne j hj
  simpa using this

/-- Witness for `extractTime_per_record`: a single-entry run stamps its
record with the clock string of iteration 0. -/
theorem extractTime_per_record_witness :
    List.lookup "extractTime"
      (([[("extractTime", JVal.str "0"), ("datasource", JVal.str "s"),
        ("datasource_type", JVal.str "t"), ("datasource_value", JVal.str "v")]] :
        List (List (String × JVal))).get ⟨0, by norm_num⟩) =
      some (.str ((fun i => toString i) 0)) :=
  extractTime_per_record (fun i => toString i) "s" "t" "v" [⟨"d1", []⟩]
    [[("extractTime", JVal.str "0"), ("datasource", JVal.str "s"),
      ("datasource_type", JVal.str "t"), ("datasource_value", JVal.str "v")]]
    none rfl (by simp) 0 (by norm_num)

/-- C4 counterexample: with a clock that advances between the two
records of one run, the two records carry different `extractTime`
values, so the field is not constant across a run. -/
theorem extractTime_not_constant :
    (build_json false (fun i => toString i) "s" "t" "v"
        [⟨"d1", []⟩, ⟨"d2", []⟩]).1.map (List.lookup "extractTime") =
      [some (.str "0"), some (.str "1")] ∧
    JVal.str "0" ≠ JVal.str "1" :=
  ⟨rfl, by decide⟩

/-! ## Record keys and serialization shape -/

theorem dictSet_fresh (k : String) (v : JVal) (d : List (String × JVal))
    (h : ∀ q ∈ d, q.1 ≠ k) : dictSet k v d = d ++ [(k, v)] := by
  rw [dictSet, if_neg]
  intro hc
  obtain ⟨p, hp, hpk⟩ := List.any_eq_true.mp hc
  exact h p hp (of_decide_eq_true hpk)

theorem attrsLoop_ok_each : ∀ (attrs : List (String × List (List Nat)))
    (d rec : List (String × JVal)), attrsLoop d attrs = .ok rec →
    ∀ q ∈ attrs, ∃ jv, processAttr q.1 q.2 = .ok jv := by
  intro attrs
  induction attrs with
  | nil =>
    intro d rec _ q hq
    exact absurd hq (List.not_mem_nil q)
  | cons kv rest ih =>
    intro d rec h q hq
    obtain ⟨k, vs⟩ := kv
    rw [attrsLoop] at h
    cases hpa : processAttr k vs with
    | error e2 =>
      rw [hpa] at h
      exact Except.noConfusion h
    | ok v =>
      rw [hpa] at h
      rcases List.mem_cons.mp hq with rfl | hq2
      · exact ⟨v, hpa⟩
      · exact ih (dictSet k v d) rec h q hq2

theorem attrsLoop_append : ∀ (attrs : List (String × List (List Nat)))
    (d : List (String × JVal)),
    (∀ q ∈ attrs, ∃ jv, processAttr q.1 q.2 = .ok jv) →
    (d.map Prod.fst ++ attrs.map Prod.fst).Nodup →
    attrsLoop d attrs =
      .ok (d ++ attrs.map (fun q => (q.1, attrValD q.1 q.2))) := by
  intro attrs
  induction attrs with
  | nil =>
    intro d _ _
    simp [attrsLoop]
  | cons kv rest ih =>
    intro d hok hnd
    obtain ⟨k, vs⟩ := kv
    obtain ⟨jv, hjv⟩ := hok (k, vs) (List.mem_cons_self _ _)
    rw [attrsLoop, hjv]
    show attrsLoop (dictSet k jv d) rest = _
    have hfresh : ∀ q ∈ d, q.1 ≠ k := by
      intro q hq he
      have h1 : q.1 ∈ d.map Prod.fst := List.mem_map_of_mem Prod.fst hq
      have hdisj := List.disjoint_of_nodup_append hnd
      exact hdisj (he ▸ h1) (by simp)
    rw [dictSet_fresh k jv d hfresh]
    have hnd2 : ((d ++ [(k, jv)]).map Prod.fst ++ rest.map Prod.fst).Nodup := by
      simp only [List.map_append, List.map_cons, List.map_nil]
      rw [List.append_assoc]
      simpa using hnd
    rw [ih (d ++ [(k, jv)]) (fun q hq => hok q (List.mem_cons_of_mem _ hq)) hnd2]
    have hval : attrValD k vs = jv := by rw [attrValD, hjv]
    simp [List.append_assoc, hval]

theorem processEntry_keys (t s ty sv : String) (e : Entry)
    (rec : List (String × JVal)) (h : processEntry t s ty sv e = .ok rec)
    (hnd : (metaKeys ++ e.attrs.map Prod.fst).Nodup) :
    rec.map Prod.fst = metaKeys ++ e.attrs.map Prod.fst := by
  have h2 : attrsLoop [("extractTime", JVal.str t), ("datasource", JVal.str s),
      ("datasource_type", JVal.str ty), ("datasource_value", JVal.str sv)]
      e.attrs = .ok rec := h
  have hok := attrsLoop_ok_each e.attrs _ rec h2
  have hnd2 : (([("extractTime", JVal.str t), ("datasource", JVal.str s),
      ("datasource_type", JVal.str ty), ("datasource_value", JVal.str sv)] :
      List (String × JVal)).map Prod.fst ++ e.attrs.map Prod.fst).Nodup := hnd
  rw [attrsLoop_append e.attrs _ hok hnd2] at h2
  have hrec := Except.ok.inj h2
  rw [← hrec, List.map_append, List.map_map]
  rfl

theorem charListLt_of_lt : ∀ (x y : List Char), x.lt y →
    charListLt x y = true := by
  intro x y h
  induction h with
  | nil b bs => rfl
  | @head a as b bs hab =>
    simp only [charListLt, if_pos (show a.toNat < b.toNat from hab)]
  | @tail a as b bs hab hba _ ih =>
    have h1 : ¬ a.toNat < b.toNat := hab
    have h2 : ¬ b.toNat < a.toNat := hba
    simp only [charListLt, if_neg h1, if_neg h2]
    exact ih

theorem lt_of_charListLt : ∀ (x y : List Char), charListLt x y = true →
    x.lt y := by
  intro x
  induction x with
  | nil =>
    intro y h
    cases y with
    | nil => exact absurd h (by simp [charListLt])
    | cons b bs => exact List.lt.nil b bs
  | cons a as ih =>
    intro y h
    cases y with
    | nil => exact absurd h (by simp [charListLt])
    | cons b bs =>
      simp only [charListLt] at h
      by_cases h1 : a.toNat < b.toNat
      · exact List.lt.head as bs h1
      · rw [if_neg h1] at h
        by_cases h2 : b.toNat < a.toNat
        · rw [if_pos h2] at h
          exact Bool.noConfusion h
        · rw [if_neg h2] at h
          exact List.lt.tail h1 h2 (ih bs h)

theorem keyLe_iff (a b : String) : keyLe a b = true ↔ a ≤ b := by
  constructor
  · intro h hlt
    have hl : List.lt b.data a.data :=
      (List.lt_iff_lex_lt _ _).mpr (String.lt_iff_toList_lt.mp hlt)
    have hc := charListLt_of_lt b.data a.data hl
    rw [keyLe, hc] at h
    exact Bool.noConfusion h
  · intro h
    rw [keyLe]
    cases hc : charListLt b.data a.data with
    | false => rfl
    | true =>
      exact absurd (String.lt_iff_toList_lt.mpr
        ((List.lt_iff_lex_lt _ _).mp (lt_of_charListLt b.data a.data hc)))
        (not_lt.mpr h)

theorem mem_insertPair (p q : String × JVal) : ∀ l : List (String × JVal),
    q ∈ insertPair p l ↔ q = p ∨ q ∈ l := by
  intro l
  induction l with
  | nil => simp [insertPair]
  | cons r rest ih =>
    rw [insertPair]
    by_cases hle : keyLe p.1 r.1 = true
    · rw [if_pos hle]
      simp
    · rw [if_neg hle]
      simp only [List.mem_cons, ih]
      tauto

theorem insertPair_pairwise (p : String × JVal) :
    ∀ l : List (String × JVal),
      l.Pairwise (fun a b => a.1 ≤ b.1) →
      (insertPair p l).Pairwise (fun a b => a.1 ≤ b.1) := by
  intro l
  induction l with
  | nil =>
    intro _
    simp [insertPair]
  | cons q rest ih =>
    intro hpw
    rw [List.pairwise_cons] at hpw
    obtain ⟨hq, hrest⟩ := hpw
    rw [insertPair]
    by_cases hle : keyLe p.1 q.1 = true
    · rw [if_pos hle]
      have hpq : p.1 ≤ q.1 := (keyLe_iff p.1 q.1).mp hle
      refine List.Pairwise.cons ?_ (List.Pairwise.cons hq hrest)
      intro x hx
      rcases List.mem_cons.mp hx with rfl | hx2
      · exact hpq
      · exact le_trans hpq (hq x hx2)
    · rw [if_neg hle]
      have hqp : q.1 ≤ p.1 :=
        le_of_not_le (fun hc => hle ((keyLe_iff p.1 q.1).mpr hc))
      refine List.Pairwise.cons ?_ (ih hrest)
      intro x hx
      rcases (mem_insertPair p x rest).mp hx with rfl | hx2
      · exact hqp
      · exact hq x hx2

theorem sortPairs_pairwise : ∀ l : List (String × JVal),
    (sortPairs l).Pairwise (fun a b => a.1 ≤ b.1) := by
  intro l
  induction l with
  | nil => simp [sortPairs]
  | cons p rest ih => exact insertPair_pairwise p (sortPairs rest) ih

/-- C8 (amended): `build_json` serializes each record as one JSON
object followed by a newline — the object itself pretty-printed over
several lines with 4-space indentation — with the keys emitted in
sorted order, and the record carries the fields `extractTime`,
`datasource`, `datasource_type`, `datasource_value` plus one key per
directory attribute. -/
theorem serialization_format :
    (∀ (t s ty sv : String) (e : Entry) (rec : List (String × JVal)),
      processEntry t s ty sv e = .ok rec →
      (metaKeys ++ e.attrs.map Prod.fst).Nodup →
      rec.map Prod.fst = metaKeys ++ e.attrs.map Prod.fst) ∧
    (∀ rec : List (String × JVal),
      ((sortPairs rec).map Prod.fst).Pairwise (· ≤ ·)) ∧
    serializeAll (build_json false (fun _ => "10.0") "srv" "ad" "dom"
        [⟨"d", [("cn", [[120]])]⟩]).1 =
      "\x7b\n    \"cn\": [\n        \"x\"\n    ],\n    \"datasource\": \"srv\",\n    \"datasource_type\": \"ad\",\n    \"datasource_value\": \"dom\",\n    \"extractTime\": \"10.0\"\n\x7d\n" := by
  refine ⟨processEntry_keys, ?_, by decide⟩
  intro rec
  exact List.pairwise_map.mpr (sortPairs_pairwise rec)

/-- Witness for `serialization_format`: the keys of the record built
from one `cn` attribute are the four provenance fields followed by
`cn`. -/
theorem serialization_format_witness :
    ([("extractTime", JVal.str "10.0"), ("datasource", JVal.str "srv"),
      ("datasource_type", JVal.str "ad"), ("datasource_value", JVal.str "dom"),
      ("cn", JVal.arr ["x"])] : List (String × JVal)).map Prod.fst =
      metaKeys ++
        ([("cn", [[120]])] : List (String × List (List Nat))).map Prod.fst :=
  serialization_format.1 "10.0" "srv" "ad" "dom" ⟨"d", [("cn", [[120]])]⟩ _ rfl
    (by decide)

/-- C8 counterexample: the JSON dump of even a one-field record contains
two embedded newlines (`indent=4` pretty-printing), so a record is not
written as one JSON object per line. -/
theorem record_not_single_line :
    (pyJsonDump [("extractTime", JVal.str "1")]).data.count '\n' = 2 ∧
    (2 : Nat) ≠ 0 :=
  ⟨by decide, by decide⟩

end LDAPProcessor
